import Mathlib

/-!
Verification of the rate-limiting subsystem of the gateway service
(`rate_limiter.py`): the in-process token bucket (`InMemoryTokenBucket`),
the remote token bucket's server-side script (`RedisTokenBucket.LUA`),
and the facade (`build_limiter`).

Timestamps are modelled as rationals (the in-process store reads a
real-valued clock); the remote backend passes the clock truncated to an
integer, so its script is modelled over integer times.  Python's
`int(x)` truncates toward zero, Lua's `math.floor` rounds toward
negative infinity; the two are modelled separately (`ratTrunc` vs
`Int.fdiv`).
-/

/-- Result of an admission check (`RateLimitDecision` in the source). -/
structure RateLimitDecision where
  allowed : Bool
  remaining : ℤ
deriving DecidableEq, Repr

/-- Per-key bucket state of the in-process store: the dict
`{"tokens": ..., "last": ..., "limit": ...}`. -/
structure Bucket where
  tokens : ℤ
  last : ℚ
  limit : ℤ
deriving DecidableEq, Repr

/-- The `defaultdict` default: a bucket implicitly created on first access,
with `tokens = 0`, `limit = 0` and `last` the clock value at creation time. -/
def freshBucket (tc : ℚ) : Bucket := ⟨0, tc, 0⟩

/-- Python's `int(q)` on a real number: truncation toward zero. -/
def ratTrunc (q : ℚ) : ℤ := if 0 ≤ q then ⌊q⌋ else ⌈q⌉

/-- Lines 27–30 of `InMemoryTokenBucket.allow`: if the stored limit differs
from the requested one, reset the bucket to `tokens = limit`,
`last = now`. -/
def resetIfChanged (b : Bucket) (limit : ℤ) (now : ℚ) : Bucket :=
  if b.limit = limit then b else ⟨limit, now, limit⟩

/-- Lines 32–36 of `InMemoryTokenBucket.allow`: compute
`refill = int(elapsed / period) * limit` and, when positive, top up to
`min(limit, tokens + refill)` and stamp `last = now`. -/
def applyRefill (b : Bucket) (limit period : ℤ) (now : ℚ) : Bucket :=
  let refill : ℤ := ratTrunc ((now - b.last) / (period : ℚ)) * limit
  if 0 < refill then ⟨min limit (b.tokens + refill), now, b.limit⟩ else b

/-- `InMemoryTokenBucket.allow` on one bucket: reset-on-limit-change,
refill, then admit (decrementing) or deny. -/
def allow (b : Bucket) (limit period : ℤ) (now : ℚ) :
    Bucket × RateLimitDecision :=
  let b2 := applyRefill (resetIfChanged b limit now) limit period now
  if 0 < b2.tokens then
    (⟨b2.tokens - 1, b2.last, b2.limit⟩, ⟨true, b2.tokens - 1⟩)
  else
    (b2, ⟨false, 0⟩)

/-- State of the bucket after `n` calls at times `t 0, …, t (n-1)` with a
fixed limit and period. -/
def callSeq (L p : ℤ) (b0 : Bucket) (t : ℕ → ℚ) : ℕ → Bucket
  | 0 => b0
  | n + 1 => (allow (callSeq L p b0 t n) L p (t n)).1

/-- Decision returned by the `(n+1)`-th call (0-indexed `n`). -/
def decisionAt (L p : ℤ) (b0 : Bucket) (t : ℕ → ℚ) (n : ℕ) :
    RateLimitDecision :=
  (allow (callSeq L p b0 t n) L p (t n)).2

/-- Remote-store state for one key: the two Redis values
`rl:{key}:tokens` and `rl:{key}:last` (always written together by the
script). -/
structure RState where
  tokens : ℤ
  last : ℤ
deriving DecidableEq, Repr

/-- Lines 56–57 of the Lua script: `GET` with defaults — a missing key
reads as `tokens = limit`, `last = now`. -/
def luaRead (st : Option RState) (limit now : ℤ) : RState :=
  match st with
  | some s => s
  | none => ⟨limit, now⟩

/-- The body of `RedisTokenBucket.LUA`: read-or-default, refill by
`math.floor(elapsed / period) * limit`, then admit or deny, writing the
state back. -/
def luaAllow (st : Option RState) (limit period : ℤ) (now : ℤ) :
    RState × RateLimitDecision :=
  let s := luaRead st limit now
  let refill : ℤ := Int.fdiv (now - s.last) period * limit
  let s2 : RState :=
    if 0 < refill then ⟨min limit (s.tokens + refill), now⟩ else s
  if 0 < s2.tokens then
    (⟨s2.tokens - 1, s2.last⟩, ⟨true, s2.tokens - 1⟩)
  else
    (s2, ⟨false, 0⟩)

/-- Bucket states of the in-process store reachable from a fresh key under
calls with one fixed limit and period. -/
inductive ReachableMem (L p : ℤ) : Bucket → Prop
  | fresh (tc : ℚ) : ReachableMem L p (freshBucket tc)
  | step (b : Bucket) (now : ℚ) :
      ReachableMem L p b → ReachableMem L p (allow b L p now).1

/-- Bucket states reachable from a fresh key under calls with arbitrary
limits and positive periods. -/
inductive ReachableMemVar : Bucket → Prop
  | fresh (tc : ℚ) : ReachableMemVar (freshBucket tc)
  | step (b : Bucket) (L p : ℤ) (now : ℚ) :
      0 < p → ReachableMemVar b → ReachableMemVar (allow b L p now).1

/-- Remote-store states reachable from an absent key under calls with one
fixed limit and period. -/
inductive ReachableLua (L p : ℤ) : Option RState → Prop
  | fresh : ReachableLua L p none
  | step (st : Option RState) (now : ℤ) :
      ReachableLua L p st → ReachableLua L p (some (luaAllow st L p now).1)

/-- Correspondence between an in-process bucket and the remote store's two
values for the same key, at (fixed) limit `L`: same token count, same
last-refill time, matching stored limit. -/
def StateCorr (L : ℤ) (b : Bucket) (s : RState) : Prop :=
  b.tokens = s.tokens ∧ b.last = (s.last : ℚ) ∧ b.limit = L

/-- The limiter selected by the facade: the in-process store or a
constructed remote client. -/
inductive Limiter
  | inMemory : Limiter
  | remote : String → Limiter
deriving DecidableEq

/-- `build_limiter(redis_url)`: no address (or the falsy empty string)
selects the in-process store; otherwise remote construction is attempted
and any exception falls back to the in-process store. -/
def buildLimiter (redis_url : Option String)
    (construct : String → Except String String) : Limiter :=
  match redis_url with
  | none => .inMemory
  | some u =>
    if u = "" then .inMemory
    else
      match construct u with
      | .ok c => .remote c
      | .error _ => .inMemory

/-- Program counter of one thread running the body of
`InMemoryTokenBucket.allow` without any lock: the reset block, the refill
block, the `tokens > 0` check and the decrement are separate
interleavable steps. -/
inductive TPc
  | ready
  | didReset
  | didRefill
  | checked (seen : ℤ)
  | finished (d : RateLimitDecision)
deriving DecidableEq, Repr

/-- One atomic step of a thread executing the unlocked `allow` body on the
shared bucket: the `tokens > 0` check reads the shared count, and the
decrement re-reads it, exactly as the two Python statements do. -/
def threadStep (L p : ℤ) (now : ℚ) : TPc → Bucket → TPc × Bucket
  | .ready, b => (.didReset, resetIfChanged b L now)
  | .didReset, b => (.didRefill, applyRefill b L p now)
  | .didRefill, b => (.checked b.tokens, b)
  | .checked t, b =>
      if 0 < t then
        (.finished ⟨true, b.tokens - 1⟩, ⟨b.tokens - 1, b.last, b.limit⟩)
      else (.finished ⟨false, 0⟩, b)
  | .finished d, b => (.finished d, b)

/-- Run two concurrent `allow(key, L, p)` calls for the same key under a
given schedule (`true` steps thread 1, `false` steps thread 2). -/
def runSched (L p : ℤ) (n1 n2 : ℚ) :
    List Bool → TPc × TPc × Bucket → TPc × TPc × Bucket
  | [], s => s
  | c :: cs, (p1, p2, b) =>
    let s' :=
      if c then
        let r := threadStep L p n1 p1 b
        (r.1, p2, r.2)
      else
        let r := threadStep L p n2 p2 b
        (p1, r.1, r.2)
    runSched L p n1 n2 cs s'

/-! ### Basic lemmas -/

theorem ratTrunc_of_nonneg {q : ℚ} (h : 0 ≤ q) : ratTrunc q = ⌊q⌋ :=
  if_pos h

theorem ratTrunc_zero : ratTrunc 0 = 0 := by
  rw [ratTrunc_of_nonneg le_rfl, Int.floor_zero]

theorem ratTrunc_nonpos_of_neg {q : ℚ} (h : q < 0) : ratTrunc q ≤ 0 := by
  rw [ratTrunc, if_neg (not_le.mpr h)]
  exact Int.ceil_le.mpr (by exact_mod_cast h.le)

theorem ratTrunc_eq_zero {q : ℚ} (h0 : 0 ≤ q) (h1 : q < 1) : ratTrunc q = 0 := by
  rw [ratTrunc_of_nonneg h0]
  exact Int.floor_eq_zero_iff.mpr ⟨h0, h1⟩

theorem resetIfChanged_of_eq {b : Bucket} {L : ℤ} (now : ℚ) (h : b.limit = L) :
    resetIfChanged b L now = b := if_pos h

theorem resetIfChanged_of_ne {b : Bucket} {L : ℤ} (now : ℚ) (h : b.limit ≠ L) :
    resetIfChanged b L now = ⟨L, now, L⟩ := if_neg h

theorem applyRefill_of_nonpos {b : Bucket} {L p : ℤ} {now : ℚ}
    (h : ratTrunc ((now - b.last) / (p : ℚ)) * L ≤ 0) :
    applyRefill b L p now = b := by
  unfold applyRefill
  rw [if_neg (not_lt.mpr h)]

theorem applyRefill_of_pos {b : Bucket} {L p : ℤ} {now : ℚ}
    (h : 0 < ratTrunc ((now - b.last) / (p : ℚ)) * L) :
    applyRefill b L p now =
      ⟨min L (b.tokens + ratTrunc ((now - b.last) / (p : ℚ)) * L), now, b.limit⟩ := by
  unfold applyRefill
  rw [if_pos h]

/-- Within the same period window no refill happens at all. -/
theorem applyRefill_inWindow {b : Bucket} {L p : ℤ} {now : ℚ} (hp : 0 < p)
    (h0 : b.last ≤ now) (h1 : now < b.last + (p : ℚ)) :
    applyRefill b L p now = b := by
  have hpq : (0 : ℚ) < (p : ℚ) := by exact_mod_cast hp
  have hdiv0 : 0 ≤ (now - b.last) / (p : ℚ) :=
    div_nonneg (by linarith) hpq.le
  have hdiv1 : (now - b.last) / (p : ℚ) < 1 :=
    (div_lt_one hpq).mpr (by linarith)
  exact applyRefill_of_nonpos (by rw [ratTrunc_eq_zero hdiv0 hdiv1, zero_mul])

/-- An `allow` call whose stored limit matches and whose time lies within
one period of the last refill: no refill, plain admit-or-deny. -/
theorem allow_inWindow {b : Bucket} {L p : ℤ} {now : ℚ} (hlim : b.limit = L)
    (hp : 0 < p) (h0 : b.last ≤ now) (h1 : now < b.last + (p : ℚ)) :
    allow b L p now =
      if 0 < b.tokens then
        (⟨b.tokens - 1, b.last, b.limit⟩, ⟨true, b.tokens - 1⟩)
      else (b, ⟨false, 0⟩) := by
  unfold allow
  rw [resetIfChanged_of_eq now hlim, applyRefill_inWindow hp h0 h1]

/-- An `allow` call whose requested limit differs from the stored one:
the bucket is reset and the decision depends only on the sign of the new
limit. -/
theorem allow_of_ne {b : Bucket} {L : ℤ} (p : ℤ) {now : ℚ} (h : b.limit ≠ L) :
    allow b L p now =
      if 0 < L then (⟨L - 1, now, L⟩, ⟨true, L - 1⟩)
      else (⟨L, now, L⟩, ⟨false, 0⟩) := by
  unfold allow
  rw [resetIfChanged_of_ne now h]
  have : applyRefill ⟨L, now, L⟩ L p now = ⟨L, now, L⟩ := by
    apply applyRefill_of_nonpos
    show ratTrunc ((now - (Bucket.mk L now L).last) / (p : ℚ)) * L ≤ 0
    simp [ratTrunc_zero]
  rw [this]

/-- After the `k`-th call (`1 ≤ k ≤ limit`) of a burst started at `t 0` on a
fresh key, the bucket holds `limit - k` tokens. -/
theorem callSeq_fresh {L p : ℤ} (hL : 0 < L) (hp : 0 < p) (tc : ℚ) {t : ℕ → ℚ}
    (ht : ∀ n, t 0 ≤ t n ∧ t n < t 0 + (p : ℚ)) :
    ∀ n, 0 < n → n ≤ L.toNat →
      callSeq L p (freshBucket tc) t n = ⟨L - n, t 0, L⟩ := by
  intro n
  induction n with
  | zero => intro h; exact absurd h (lt_irrefl 0)
  | succ m ih =>
    intro _ hle
    rcases Nat.eq_zero_or_pos m with hm | hm
    · subst hm
      show (allow (callSeq L p (freshBucket tc) t 0) L p (t 0)).1 = _
      rw [show callSeq L p (freshBucket tc) t 0 = freshBucket tc from rfl,
        allow_of_ne p (by simpa [freshBucket] using hL.ne), if_pos hL]
      norm_num
    · have hmle : m ≤ L.toNat := Nat.le_of_succ_le hle
      have hmlt : (m : ℤ) < L := by
        have : (m : ℤ) < L.toNat := by exact_mod_cast Nat.lt_of_lt_of_le hle le_rfl
        rwa [Int.toNat_of_nonneg hL.le] at this
      show (allow (callSeq L p (freshBucket tc) t m) L p (t m)).1 = _
      rw [ih hm hmle,
        allow_inWindow rfl hp (ht m).1 (ht m).2]
      show (if 0 < L - (m : ℤ) then _ else _ : Bucket × RateLimitDecision).1 = _
      rw [if_pos (by omega)]
      show Bucket.mk (L - (m : ℤ) - 1) (t 0) L = _
      congr 1
      push_cast
      ring

/-- C1: for every `limit > 0` and `period > 0`, `limit` consecutive calls on
a fresh key within one period are all admitted with `remaining`
descending `limit-1, …, 0`, and the `(limit+1)`-th call in the same
period is denied with `remaining = 0`. -/
theorem c1_fresh_burst {L p : ℤ} (hL : 0 < L) (hp : 0 < p) (tc : ℚ)
    {t : ℕ → ℚ} (ht : ∀ n, t 0 ≤ t n ∧ t n < t 0 + (p : ℚ)) :
    (∀ n, n < L.toNat →
      decisionAt L p (freshBucket tc) t n = ⟨true, L - 1 - n⟩) ∧
    decisionAt L p (freshBucket tc) t L.toNat = ⟨false, 0⟩ := by
  have hcast : ((L.toNat : ℤ)) = L := Int.toNat_of_nonneg hL.le
  constructor
  · intro n hn
    rcases Nat.eq_zero_or_pos n with h0 | h0
    · subst h0
      unfold decisionAt
      rw [show callSeq L p (freshBucket tc) t 0 = freshBucket tc from rfl,
        allow_of_ne p (by simpa [freshBucket] using hL.ne), if_pos hL]
      norm_num
    · unfold decisionAt
      rw [callSeq_fresh hL hp tc ht n h0 hn.le,
        allow_inWindow rfl hp (ht n).1 (ht n).2]
      have hnlt : (n : ℤ) < L := by omega
      rw [if_pos (show (0 : ℤ) < L - (n : ℤ) by omega)]
      show RateLimitDecision.mk true (L - (n : ℤ) - 1) = _
      congr 1
      ring
  · unfold decisionAt
    rw [callSeq_fresh hL hp tc ht L.toNat (by omega) le_rfl,
      allow_inWindow rfl hp (ht L.toNat).1 (ht L.toNat).2]
    show (if (0 : ℤ) < L - (L.toNat : ℤ) then _ else _ :
      Bucket × RateLimitDecision).2 = _
    rw [if_neg (show ¬ (0 : ℤ) < L - (L.toNat : ℤ) by omega)]

/-- Witness for C1 at `limit = 5`, `period = 60`, all six calls at time 0. -/
theorem c1_fresh_burst_witness :
    decisionAt 5 60 (freshBucket 0) (fun _ => 0) 2 = ⟨true, 5 - 1 - (2 : ℕ)⟩ ∧
    decisionAt 5 60 (freshBucket 0) (fun _ => 0) (5 : ℤ).toNat = ⟨false, 0⟩ :=
  ⟨(c1_fresh_burst (by decide) (by decide) 0
      (fun n => by constructor <;> simp)).1 2 (by decide),
   (c1_fresh_burst (by decide) (by decide) 0
      (fun n => by constructor <;> simp)).2⟩

/-- C3: with a matching stored limit, `period > 0` and non-negative elapsed
time, the refill is exactly `floor(elapsed / period) * limit` capped at
`limit` and applied (stamping `last = now`) only when positive; elapsed
time short of one period contributes nothing; and one full period after
exhaustion the call is admitted with `remaining = limit - 1`. -/
theorem c3_refill_semantics {b : Bucket} {L p : ℤ} {now : ℚ}
    (hlim : b.limit = L) (hp : 0 < p) (he : b.last ≤ now) :
    (applyRefill (resetIfChanged b L now) L p now =
      if 0 < ⌊(now - b.last) / (p : ℚ)⌋ * L then
        ⟨min L (b.tokens + ⌊(now - b.last) / (p : ℚ)⌋ * L), now, L⟩
      else b) ∧
    (now < b.last + (p : ℚ) →
      applyRefill (resetIfChanged b L now) L p now = b) ∧
    (b.tokens = 0 → 0 < L → b.last + (p : ℚ) ≤ now →
      allow b L p now = (⟨L - 1, now, L⟩, ⟨true, L - 1⟩)) := by
  have hpq : (0 : ℚ) < (p : ℚ) := by exact_mod_cast hp
  have htr : ratTrunc ((now - b.last) / (p : ℚ)) = ⌊(now - b.last) / (p : ℚ)⌋ :=
    ratTrunc_of_nonneg (div_nonneg (by linarith) hpq.le)
  refine ⟨?_, fun h1 => ?_, fun ht0 hL hge => ?_⟩
  · rw [resetIfChanged_of_eq now hlim]
    by_cases hpos : 0 < ⌊(now - b.last) / (p : ℚ)⌋ * L
    · rw [if_pos hpos, applyRefill_of_pos (by rw [htr]; exact hpos), htr, hlim]
    · rw [if_neg hpos, applyRefill_of_nonpos (by rw [htr]; exact not_lt.mp hpos)]
  · rw [resetIfChanged_of_eq now hlim]
    exact applyRefill_inWindow hp he h1
  · have hq1 : (1 : ℤ) ≤ ⌊(now - b.last) / (p : ℚ)⌋ := by
      rw [Int.le_floor]
      push_cast
      exact (one_le_div hpq).mpr (by linarith)
    have hrefill : 0 < ratTrunc ((now - b.last) / (p : ℚ)) * L := by
      rw [htr]
      exact mul_pos (by omega) hL
    unfold allow
    rw [resetIfChanged_of_eq now hlim, applyRefill_of_pos hrefill, htr, ht0, hlim]
    have hmin : min L (0 + ⌊(now - b.last) / (p : ℚ)⌋ * L) = L := by
      rw [zero_add]
      exact min_eq_left (le_mul_of_one_le_left hL.le hq1)
    show (if 0 < min L (0 + ⌊(now - b.last) / (p : ℚ)⌋ * L) then _ else _ :
      Bucket × RateLimitDecision) = _
    rw [hmin, if_pos hL]

/-- Witness for C3: bucket `⟨0, 0, 5⟩`, limit 5, period 60, call at `now = 60`
(exactly one period after exhaustion). -/
theorem c3_refill_semantics_witness :
    (applyRefill (resetIfChanged ⟨0, 0, 5⟩ 5 60) 5 60 60 =
      if 0 < ⌊((60 : ℚ) - (Bucket.mk 0 0 5).last) / ((60 : ℤ) : ℚ)⌋ * 5 then
        ⟨min 5 ((Bucket.mk 0 0 5).tokens +
          ⌊((60 : ℚ) - (Bucket.mk 0 0 5).last) / ((60 : ℤ) : ℚ)⌋ * 5), 60, 5⟩
      else ⟨0, 0, 5⟩) ∧
    ((60 : ℚ) < (Bucket.mk 0 0 5).last + ((60 : ℤ) : ℚ) →
      applyRefill (resetIfChanged ⟨0, 0, 5⟩ 5 60) 5 60 60 = ⟨0, 0, 5⟩) ∧
    ((Bucket.mk 0 0 5).tokens = 0 → (0 : ℤ) < 5 →
      (Bucket.mk 0 0 5).last + ((60 : ℤ) : ℚ) ≤ 60 →
      allow ⟨0, 0, 5⟩ 5 60 60 = (⟨5 - 1, 60, 5⟩, ⟨true, 5 - 1⟩)) :=
  c3_refill_semantics rfl (by decide) (by simp)

/-- C4 counterexample: the remote script performs no reset on limit change.
A key exhausted down to 8 tokens under `limit = 10` keeps them on the
next call with `limit = 3`: the stored count stays 8 (not reset to 3)
and the call is admitted with `remaining = 8`. -/
theorem c4_remote_no_reset_counterexample :
    (luaAllow none 10 60 0).1 = ⟨9, 0⟩ ∧
    (luaAllow (some (luaAllow none 10 60 0).1) 3 60 0).1.tokens = 8 ∧
    (luaAllow (some (luaAllow none 10 60 0).1) 3 60 0).2 = ⟨true, 8⟩ ∧
    ¬ (luaAllow (some (luaAllow none 10 60 0).1) 3 60 0).1.tokens ≤ 3 := by
  decide

/-- C4 (amended): the reset-on-limit-change rule holds for the in-process
store — a stored limit differing from the requested one resets the
bucket to `tokens = limit`, `last = now` before deciding, so the change
takes effect fully refilled regardless of the prior token count.  The
remote script stores no limit and performs no such reset. -/
theorem c4_reset_on_limit_change {b : Bucket} {L : ℤ} (p : ℤ) (now : ℚ)
    (h : b.limit ≠ L) :
    resetIfChanged b L now = ⟨L, now, L⟩ ∧
    allow b L p now =
      if 0 < L then (⟨L - 1, now, L⟩, ⟨true, L - 1⟩)
      else (⟨L, now, L⟩, ⟨false, 0⟩) :=
  ⟨resetIfChanged_of_ne now h, allow_of_ne p h⟩

/-- Witness for C4: bucket `⟨4, 0, 5⟩` (stored limit 5), called with
limit 3. -/
theorem c4_reset_on_limit_change_witness :
    resetIfChanged ⟨4, 0, 5⟩ 3 0 = ⟨3, 0, 3⟩ ∧
    allow ⟨4, 0, 5⟩ 3 60 0 =
      if 0 < (3 : ℤ) then (⟨3 - 1, 0, 3⟩, ⟨true, 3 - 1⟩)
      else (⟨3, 0, 3⟩, ⟨false, 0⟩) :=
  c4_reset_on_limit_change 60 0 (by decide)

/-- C10 counterexample: with a negative stored limit the claim fails — a
bucket `⟨-5, 60, -5⟩` (reached by a first call with `limit = -5` at time
60) called at the earlier time `now = 0` computes refill
`trunc(-60/60) * (-5) = 5 > 0`, so the refill branch runs and
`last_refill` moves from 60 to 0 even though the clock went backwards. -/
theorem c10_negative_limit_counterexample :
    allow (freshBucket 60) (-5) 60 60 = (⟨-5, 60, -5⟩, ⟨false, 0⟩) ∧
    (allow (allow (freshBucket 60) (-5) 60 60).1 (-5) 60 0).1.last ≠ 60 ∧
    (0 : ℚ) < (allow (freshBucket 60) (-5) 60 60).1.last := by
  have h1 : allow (freshBucket 60) (-5) 60 60 = (⟨-5, 60, -5⟩, ⟨false, 0⟩) := by
    norm_num [allow, applyRefill, resetIfChanged, ratTrunc, freshBucket]
  have h2 : allow ⟨-5, 60, -5⟩ (-5) 60 0 = (⟨-5, 0, -5⟩, ⟨false, 0⟩) := by
    norm_num [allow, applyRefill, resetIfChanged, ratTrunc, Int.ceil_neg]
  rw [h1]
  refine ⟨rfl, ?_, by norm_num⟩
  show (allow ⟨-5, 60, -5⟩ (-5) 60 0).1.last ≠ 60
  rw [h2]
  norm_num

/-- C10 (amended): with `period > 0`, a matching stored limit and a
*non-negative* limit, a call at `now < last_refill` computes a
non-positive refill, so the refill branch does not run: the bucket is
unchanged before the admit/deny step and `last_refill` is preserved. -/
theorem c10_clock_backwards {b : Bucket} {L p : ℤ} {now : ℚ}
    (hlim : b.limit = L) (hL : 0 ≤ L) (hp : 0 < p) (hnow : now < b.last) :
    ratTrunc ((now - b.last) / (p : ℚ)) * L ≤ 0 ∧
    applyRefill (resetIfChanged b L now) L p now = b ∧
    (allow b L p now).1.last = b.last := by
  have hpq : (0 : ℚ) < (p : ℚ) := by exact_mod_cast hp
  have hdiv : (now - b.last) / (p : ℚ) < 0 :=
    div_neg_of_neg_of_pos (by linarith) hpq
  have h1 : ratTrunc ((now - b.last) / (p : ℚ)) * L ≤ 0 :=
    mul_nonpos_iff.mpr (Or.inr ⟨ratTrunc_nonpos_of_neg hdiv, hL⟩)
  have h2 : applyRefill (resetIfChanged b L now) L p now = b := by
    rw [resetIfChanged_of_eq now hlim]
    exact applyRefill_of_nonpos h1
  refine ⟨h1, h2, ?_⟩
  unfold allow
  rw [h2]
  by_cases hbt : 0 < b.tokens
  · rw [if_pos hbt]
  · rw [if_neg hbt]

/-- Witness for C10: bucket `⟨3, 0, 5⟩` called at `now = -1 < 0 = last`. -/
theorem c10_clock_backwards_witness :
    ratTrunc (((-1 : ℚ) - (Bucket.mk 3 0 5).last) / ((60 : ℤ) : ℚ)) * 5 ≤ 0 ∧
    applyRefill (resetIfChanged ⟨3, 0, 5⟩ 5 (-1)) 5 60 (-1) = ⟨3, 0, 5⟩ ∧
    (allow ⟨3, 0, 5⟩ 5 60 (-1)).1.last = (Bucket.mk 3 0 5).last :=
  c10_clock_backwards rfl (by decide) (by decide) (by decide)

/-! ### Token-count invariants -/

/-- The token count after reset and refill (before the admit/deny step)
stays within `[0, limit]` whenever the incoming count does. -/
theorem preDecision_bounds {b : Bucket} {L p : ℤ} (now : ℚ) (hL : 0 ≤ L)
    (h0 : 0 ≤ b.tokens) (h1 : b.tokens ≤ L) :
    0 ≤ (applyRefill (resetIfChanged b L now) L p now).tokens ∧
    (applyRefill (resetIfChanged b L now) L p now).tokens ≤ L := by
  unfold applyRefill resetIfChanged
  dsimp only
  repeat' split
  all_goals try dsimp only at *
  all_goals omega

/-- Every `allow` call leaves the stored limit equal to the requested one. -/
theorem allow_post_limit (b : Bucket) (L p : ℤ) (now : ℚ) :
    (allow b L p now).1.limit = L := by
  unfold allow applyRefill resetIfChanged
  dsimp only
  repeat' split
  all_goals try dsimp only at *
  all_goals omega

/-- Every `allow` call keeps the stored token count within `[0, limit]`. -/
theorem allow_post_bounds {b : Bucket} {L p : ℤ} (now : ℚ) (hL : 0 ≤ L)
    (h0 : 0 ≤ b.tokens) (h1 : b.tokens ≤ L) :
    0 ≤ (allow b L p now).1.tokens ∧ (allow b L p now).1.tokens ≤ L := by
  have hpre := preDecision_bounds (p := p) now hL h0 h1
  unfold allow
  dsimp only
  split
  all_goals try dsimp only at *
  all_goals omega

theorem reachableMem_bounds {L p : ℤ} (hL : 0 < L) {b : Bucket}
    (hr : ReachableMem L p b) : 0 ≤ b.tokens ∧ b.tokens ≤ L := by
  induction hr with
  | fresh tc => exact ⟨le_rfl, hL.le⟩
  | step b now hb ih => exact allow_post_bounds now hL.le ih.1 ih.2

/-- Remote-side analogue: the script keeps the stored token count within
`[0, limit]` whenever the read (or defaulted) count is. -/
theorem luaAllow_post_bounds {st : Option RState} {L p now : ℤ} (hL : 0 ≤ L)
    (h0 : 0 ≤ (luaRead st L now).tokens) (h1 : (luaRead st L now).tokens ≤ L) :
    0 ≤ (luaAllow st L p now).1.tokens ∧ (luaAllow st L p now).1.tokens ≤ L := by
  unfold luaAllow
  dsimp only
  repeat' split
  all_goals try dsimp only at *
  all_goals omega

theorem reachableLua_bounds {L p : ℤ} (hL : 0 < L) {st : Option RState}
    (hr : ReachableLua L p st) :
    ∀ s, st = some s → 0 ≤ s.tokens ∧ s.tokens ≤ L := by
  induction hr with
  | fresh => exact fun s h => Option.noConfusion h
  | step st now hst ih =>
    intro s h
    have h' : (luaAllow st L p now).1 = s := by injection h
    subst h'
    have hread : 0 ≤ (luaRead st L now).tokens ∧ (luaRead st L now).tokens ≤ L := by
      cases st with
      | none => exact ⟨hL.le, le_rfl⟩
      | some s' => exact ih s' rfl
    exact luaAllow_post_bounds hL.le hread.1 hread.2

/-- C5: along any call sequence with fixed `limit > 0` and `period > 0`,
every decision's `remaining` lies in `[0, limit]`; an admitted call
stores exactly the pre-decision count minus one and reports it, and a
denied call reports `remaining = 0` and stores the pre-decision count
unchanged (no decrement). -/
theorem c5_decision_properties {L p : ℤ} (hL : 0 < L) (hp : 0 < p) {b : Bucket}
    (hr : ReachableMem L p b) (now : ℚ) :
    (0 ≤ (allow b L p now).2.remaining ∧ (allow b L p now).2.remaining ≤ L) ∧
    ((allow b L p now).2.allowed = true →
      (allow b L p now).1.tokens =
        (applyRefill (resetIfChanged b L now) L p now).tokens - 1 ∧
      (allow b L p now).2.remaining = (allow b L p now).1.tokens) ∧
    ((allow b L p now).2.allowed = false →
      (allow b L p now).2.remaining = 0 ∧
      (allow b L p now).1.tokens =
        (applyRefill (resetIfChanged b L now) L p now).tokens) := by
  have hmem := reachableMem_bounds hL hr
  have hpre := preDecision_bounds (p := p) now hL.le hmem.1 hmem.2
  unfold allow
  dsimp only
  by_cases hbt : 0 < (applyRefill (resetIfChanged b L now) L p now).tokens
  · rw [if_pos hbt]
    refine ⟨⟨?_, ?_⟩, fun _ => ⟨rfl, rfl⟩, fun hf => Bool.noConfusion hf⟩
    · show 0 ≤ (applyRefill (resetIfChanged b L now) L p now).tokens - 1
      omega
    · show (applyRefill (resetIfChanged b L now) L p now).tokens - 1 ≤ L
      omega
  · rw [if_neg hbt]
    exact ⟨⟨le_rfl, hL.le⟩, fun ht => Bool.noConfusion ht, fun _ => ⟨rfl, rfl⟩⟩

/-- Witness for C5 at the fresh bucket, `limit = 5`, `period = 60`,
`now = 0`. -/
theorem c5_decision_properties_witness :
    (0 ≤ (allow (freshBucket 0) 5 60 0).2.remaining ∧
      (allow (freshBucket 0) 5 60 0).2.remaining ≤ 5) ∧
    ((allow (freshBucket 0) 5 60 0).2.allowed = true →
      (allow (freshBucket 0) 5 60 0).1.tokens =
        (applyRefill (resetIfChanged (freshBucket 0) 5 0) 5 60 0).tokens - 1 ∧
      (allow (freshBucket 0) 5 60 0).2.remaining =
        (allow (freshBucket 0) 5 60 0).1.tokens) ∧
    ((allow (freshBucket 0) 5 60 0).2.allowed = false →
      (allow (freshBucket 0) 5 60 0).2.remaining = 0 ∧
      (allow (freshBucket 0) 5 60 0).1.tokens =
        (applyRefill (resetIfChanged (freshBucket 0) 5 0) 5 60 0).tokens) :=
  c5_decision_properties (by decide) (by decide) (ReachableMem.fresh 0) 0

/-- C7: for fixed `limit > 0` and `period > 0`, every reachable stored
state of either backend keeps `0 ≤ tokens ≤ limit`, and a bucket
accessed for the first time is set up with `tokens = limit` before the
call's own consumption (the in-process reset block and the script's
`GET`-with-default respectively). -/
theorem c7_tokens_invariant (L p : ℤ) (hL : 0 < L) (hp : 0 < p) :
    (∀ b, ReachableMem L p b → 0 ≤ b.tokens ∧ b.tokens ≤ L) ∧
    (∀ st s, ReachableLua L p st → st = some s →
      0 ≤ s.tokens ∧ s.tokens ≤ L) ∧
    (∀ (tc now : ℚ), (resetIfChanged (freshBucket tc) L now).tokens = L) ∧
    (∀ now : ℤ, (luaRead none L now).tokens = L) := by
  refine ⟨fun b hb => reachableMem_bounds hL hb,
    fun st s hr hs => reachableLua_bounds hL hr s hs, fun tc now => ?_, fun _ => rfl⟩
  rw [resetIfChanged_of_ne now (show (freshBucket tc).limit ≠ L from hL.ne)]

/-- Witness for C7 at `limit = 5`, `period = 60`, on states reached by one
call on each backend. -/
theorem c7_tokens_invariant_witness :
    (0 ≤ (allow (freshBucket 0) 5 60 0).1.tokens ∧
      (allow (freshBucket 0) 5 60 0).1.tokens ≤ 5) ∧
    (0 ≤ (luaAllow none 5 60 0).1.tokens ∧ (luaAllow none 5 60 0).1.tokens ≤ 5) ∧
    (resetIfChanged (freshBucket 7) 5 3).tokens = 5 ∧
    (luaRead none 5 3).tokens = 5 :=
  ⟨(c7_tokens_invariant 5 60 (by decide) (by decide)).1 _
      (ReachableMem.step (freshBucket 0) 0 (ReachableMem.fresh 0)),
   (c7_tokens_invariant 5 60 (by decide) (by decide)).2.1 _ _
      (ReachableLua.step none 0 ReachableLua.fresh) rfl,
   (c7_tokens_invariant 5 60 (by decide) (by decide)).2.2.1 7 3,
   (c7_tokens_invariant 5 60 (by decide) (by decide)).2.2.2 3⟩

/-- With a non-positive requested limit, the token count after reset and
refill is still non-positive. -/
theorem preDecision_tokens_nonpos {b : Bucket} {L : ℤ} (p : ℤ) (now : ℚ)
    (hL : L ≤ 0) (h : b.limit = L → b.tokens ≤ 0) :
    (applyRefill (resetIfChanged b L now) L p now).tokens ≤ 0 := by
  rcases eq_or_ne b.limit L with hc | hc
  case inl =>
    have hb0 : b.tokens ≤ 0 := h hc
    unfold applyRefill resetIfChanged
    dsimp only
    repeat' split
    all_goals try dsimp only at *
    all_goals omega
  case inr =>
    unfold applyRefill resetIfChanged
    dsimp only
    repeat' split
    all_goals try dsimp only at *
    all_goals omega

/-- With a non-positive requested limit, a full `allow` call stores a
non-positive token count. -/
theorem allow_post_tokens_nonpos {b : Bucket} {L : ℤ} (p : ℤ) (now : ℚ)
    (hL : L ≤ 0) (h : b.limit = L → b.tokens ≤ 0) :
    (allow b L p now).1.tokens ≤ 0 := by
  rcases eq_or_ne b.limit L with hc | hc
  case inl =>
    have hb0 : b.tokens ≤ 0 := h hc
    unfold allow applyRefill resetIfChanged
    dsimp only
    repeat' split
    all_goals try dsimp only at *
    all_goals omega
  case inr =>
    unfold allow applyRefill resetIfChanged
    dsimp only
    repeat' split
    all_goals try dsimp only at *
    all_goals omega

/-- Along any history of calls (any limits, positive periods), a stored
non-positive limit comes with a non-positive token count. -/
theorem reachableMemVar_tokens_nonpos {b : Bucket} (hr : ReachableMemVar b) :
    b.limit ≤ 0 → b.tokens ≤ 0 := by
  induction hr with
  | fresh tc => exact fun _ => le_rfl
  | step b L p now hp hb ih =>
    intro hpost
    have hL : L ≤ 0 := by rwa [allow_post_limit b L p now] at hpost
    exact allow_post_tokens_nonpos p now hL (fun hc => ih (by rw [hc]; exact hL))

/-- C9: with `limit ≤ 0` and `period > 0`, every `allow` call on any
reachable bucket returns the deterministic decision
`allowed = false, remaining = 0`. -/
theorem c9_nonpositive_limit_denies {b : Bucket} {L p : ℤ} (hL : L ≤ 0)
    (hp : 0 < p) (hr : ReachableMemVar b) (now : ℚ) :
    (allow b L p now).2 = ⟨false, 0⟩ := by
  have hpre : (applyRefill (resetIfChanged b L now) L p now).tokens ≤ 0 :=
    preDecision_tokens_nonpos p now hL
      (fun hc => reachableMemVar_tokens_nonpos hr (by rw [hc]; exact hL))
  unfold allow
  dsimp only
  rw [if_neg (not_lt.mpr hpre)]

/-- Witness for C9: a fresh key called with `limit = 0`, `period = 60`. -/
theorem c9_nonpositive_limit_denies_witness :
    (allow (freshBucket 0) 0 60 0).2 = ⟨false, 0⟩ :=
  c9_nonpositive_limit_denies (by decide) (by decide) (ReachableMemVar.fresh 0) 0

/-! ### Backend correspondence -/

/-- Floor of an integer-cast division agrees with `Int.fdiv` (Lua's
`math.floor(elapsed / period)` on integer inputs). -/
theorem floor_intCast_div {e p : ℤ} (hp : 0 < p) :
    ⌊(e : ℚ) / (p : ℚ)⌋ = Int.fdiv e p := by
  have hN : ((p.toNat : ℕ) : ℤ) = p := Int.toNat_of_nonneg hp.le
  have hcast : ((p.toNat : ℕ) : ℚ) = (p : ℚ) := by exact_mod_cast hN
  rw [← hcast, Rat.floor_intCast_div_natCast, hN, Int.fdiv_eq_ediv e hp.le]

/-- For a positive limit, the in-process refill (`int`, truncation) and the
script's refill (`math.floor`) on the same integer elapsed time are
either equal or both non-positive (and then both are skipped). -/
theorem refill_corr {L p : ℤ} (hL : 0 < L) (hp : 0 < p) (e : ℤ) :
    ratTrunc ((e : ℚ) / (p : ℚ)) * L = Int.fdiv e p * L ∨
    (ratTrunc ((e : ℚ) / (p : ℚ)) * L ≤ 0 ∧ Int.fdiv e p * L ≤ 0) := by
  have hpq : (0 : ℚ) < (p : ℚ) := by exact_mod_cast hp
  rcases le_or_lt 0 e with he | he
  · left
    rw [ratTrunc_of_nonneg (div_nonneg (by exact_mod_cast he) hpq.le),
      floor_intCast_div hp]
  · right
    have h1 : ratTrunc ((e : ℚ) / (p : ℚ)) ≤ 0 :=
      ratTrunc_nonpos_of_neg (div_neg_of_neg_of_pos (by exact_mod_cast he) hpq)
    exact ⟨mul_nonpos_iff.mpr (Or.inr ⟨h1, hL.le⟩),
      mul_nonpos_iff.mpr (Or.inr ⟨(Int.fdiv_neg' he hp).le, hL.le⟩)⟩

theorem allow_refill_pos {b : Bucket} {L p : ℤ} {now : ℚ} (hlim : b.limit = L)
    (h : 0 < ratTrunc ((now - b.last) / (p : ℚ)) * L) :
    allow b L p now =
      if 0 < min L (b.tokens + ratTrunc ((now - b.last) / (p : ℚ)) * L) then
        (⟨min L (b.tokens + ratTrunc ((now - b.last) / (p : ℚ)) * L) - 1, now, L⟩,
         ⟨true, min L (b.tokens + ratTrunc ((now - b.last) / (p : ℚ)) * L) - 1⟩)
      else
        (⟨min L (b.tokens + ratTrunc ((now - b.last) / (p : ℚ)) * L), now, L⟩,
         ⟨false, 0⟩) := by
  unfold allow
  rw [resetIfChanged_of_eq now hlim, applyRefill_of_pos h, hlim]

theorem allow_refill_nonpos {b : Bucket} {L p : ℤ} {now : ℚ} (hlim : b.limit = L)
    (h : ratTrunc ((now - b.last) / (p : ℚ)) * L ≤ 0) :
    allow b L p now =
      if 0 < b.tokens then
        (⟨b.tokens - 1, b.last, b.limit⟩, ⟨true, b.tokens - 1⟩)
      else (b, ⟨false, 0⟩) := by
  unfold allow
  rw [resetIfChanged_of_eq now hlim, applyRefill_of_nonpos h]

theorem luaAllow_some_pos {s : RState} {L p now : ℤ}
    (h : 0 < Int.fdiv (now - s.last) p * L) :
    luaAllow (some s) L p now =
      if 0 < min L (s.tokens + Int.fdiv (now - s.last) p * L) then
        (⟨min L (s.tokens + Int.fdiv (now - s.last) p * L) - 1, now⟩,
         ⟨true, min L (s.tokens + Int.fdiv (now - s.last) p * L) - 1⟩)
      else
        (⟨min L (s.tokens + Int.fdiv (now - s.last) p * L), now⟩, ⟨false, 0⟩) := by
  unfold luaAllow luaRead
  dsimp only
  rw [if_pos h]

theorem luaAllow_some_nonpos {s : RState} {L p now : ℤ}
    (h : Int.fdiv (now - s.last) p * L ≤ 0) :
    luaAllow (some s) L p now =
      if 0 < s.tokens then (⟨s.tokens - 1, s.last⟩, ⟨true, s.tokens - 1⟩)
      else (s, ⟨false, 0⟩) := by
  unfold luaAllow luaRead
  dsimp only
  rw [if_neg (not_lt.mpr h)]

theorem luaAllow_none_eq (L p now : ℤ) :
    luaAllow none L p now =
      if 0 < L then (⟨L - 1, now⟩, ⟨true, L - 1⟩)
      else (⟨L, now⟩, ⟨false, 0⟩) := by
  unfold luaAllow luaRead
  dsimp only
  rw [sub_self, Int.zero_fdiv, zero_mul, if_neg (lt_irrefl 0)]

/-- One corresponding step: on corresponding states, the two backends
return the same decision and step to corresponding states. -/
theorem allow_luaAllow_corr {L p : ℤ} (hL : 0 < L) (hp : 0 < p) (b : Bucket)
    (s : RState) (now : ℤ) (hc : StateCorr L b s) :
    (allow b L p (now : ℚ)).2 = (luaAllow (some s) L p now).2 ∧
    StateCorr L (allow b L p (now : ℚ)).1 (luaAllow (some s) L p now).1 := by
  obtain ⟨ht, hl, hlim⟩ := hc
  have hecast : ((now : ℚ) - b.last) = ((now - s.last : ℤ) : ℚ) := by
    rw [hl]; push_cast; ring
  have hmemref : ratTrunc (((now : ℚ) - b.last) / (p : ℚ)) * L =
      ratTrunc (((now - s.last : ℤ) : ℚ) / (p : ℚ)) * L := by rw [hecast]
  rcases refill_corr hL hp (now - s.last) with heq | ⟨hm1, hm2⟩
  · have heq' : ratTrunc (((now : ℚ) - b.last) / (p : ℚ)) * L =
        Int.fdiv (now - s.last) p * L := by rw [hmemref, heq]
    by_cases hpos : 0 < Int.fdiv (now - s.last) p * L
    · rw [allow_refill_pos hlim (by rw [heq']; exact hpos), luaAllow_some_pos hpos,
        heq', ht]
      by_cases hmin : 0 < min L (s.tokens + Int.fdiv (now - s.last) p * L)
      · rw [if_pos hmin, if_pos hmin]
        exact ⟨rfl, rfl, rfl, rfl⟩
      · rw [if_neg hmin, if_neg hmin]
        exact ⟨rfl, rfl, rfl, rfl⟩
    · rw [allow_refill_nonpos hlim (by rw [heq']; omega),
        luaAllow_some_nonpos (by omega), ht]
      by_cases htk : 0 < s.tokens
      · rw [if_pos htk, if_pos htk]
        exact ⟨rfl, rfl, hl, hlim⟩
      · rw [if_neg htk, if_neg htk]
        exact ⟨rfl, ht, hl, hlim⟩
  · rw [allow_refill_nonpos hlim (by rw [hmemref]; exact hm1),
      luaAllow_some_nonpos hm2, ht]
    by_cases htk : 0 < s.tokens
    · rw [if_pos htk, if_pos htk]
      exact ⟨rfl, rfl, hl, hlim⟩
    · rw [if_neg htk, if_neg htk]
      exact ⟨rfl, ht, hl, hlim⟩

/-- C2 counterexample: the script does not implement the
reset-on-limit-change rule, so the two backends are *not* equivalent.
After one admitted call at `limit = 5`, a call with `limit = 3` returns
`remaining = 2` in-process (reset to 3, then decrement) but
`remaining = 3` remotely (no reset). -/
theorem c2_backends_differ_counterexample :
    (allow (allow (freshBucket 0) 5 60 0).1 3 60 0).2 = ⟨true, 2⟩ ∧
    (luaAllow (some (luaAllow none 5 60 0).1) 3 60 0).2 = ⟨true, 3⟩ ∧
    (allow (allow (freshBucket 0) 5 60 0).1 3 60 0).2 ≠
      (luaAllow (some (luaAllow none 5 60 0).1) 3 60 0).2 := by
  have h1 : allow (freshBucket 0) 5 60 0 = (⟨4, 0, 5⟩, ⟨true, 4⟩) := by
    norm_num [allow, applyRefill, resetIfChanged, ratTrunc, freshBucket]
  have h2 : allow ⟨4, 0, 5⟩ 3 60 0 = (⟨2, 0, 3⟩, ⟨true, 2⟩) := by
    norm_num [allow, applyRefill, resetIfChanged, ratTrunc]
  have hm : (allow (allow (freshBucket 0) 5 60 0).1 3 60 0).2 = ⟨true, 2⟩ := by
    rw [h1, h2]
  have hr : (luaAllow (some (luaAllow none 5 60 0).1) 3 60 0).2 = ⟨true, 3⟩ := by
    decide
  exact ⟨hm, hr, by rw [hm, hr]; decide⟩

/-- C2 (amended): with one *fixed* limit `L > 0` per key (so the
reset-on-limit-change rule never fires) and `period > 0`, the two
backends are equivalent: a first call on an absent key and every call on
corresponding stored states return the same decision and leave
corresponding states, for all integer call times (even non-monotone
ones). The script does not implement the reset-on-limit-change rule, so
equivalence fails when the limit changes. -/
theorem c2_fixed_limit_equivalence {L p : ℤ} (hL : 0 < L) (hp : 0 < p) :
    (∀ (tc : ℚ) (now : ℤ),
      (allow (freshBucket tc) L p (now : ℚ)).2 = (luaAllow none L p now).2 ∧
      StateCorr L (allow (freshBucket tc) L p (now : ℚ)).1
        (luaAllow none L p now).1) ∧
    (∀ (b : Bucket) (s : RState) (now : ℤ), StateCorr L b s →
      (allow b L p (now : ℚ)).2 = (luaAllow (some s) L p now).2 ∧
      StateCorr L (allow b L p (now : ℚ)).1 (luaAllow (some s) L p now).1) := by
  constructor
  · intro tc now
    rw [allow_of_ne p (show (freshBucket tc).limit ≠ L from hL.ne), if_pos hL,
      luaAllow_none_eq, if_pos hL]
    exact ⟨rfl, rfl, rfl, rfl⟩
  · exact fun b s now hc => allow_luaAllow_corr hL hp b s now hc

/-- Witness for C2 at `limit = 5`, `period = 60`: the fresh-key call and
one step on the corresponding states `⟨4, 0, 5⟩` / `⟨4, 0⟩`. -/
theorem c2_fixed_limit_equivalence_witness :
    ((allow (freshBucket 0) 5 60 ((0 : ℤ) : ℚ)).2 = (luaAllow none 5 60 0).2 ∧
      StateCorr 5 (allow (freshBucket 0) 5 60 ((0 : ℤ) : ℚ)).1
        (luaAllow none 5 60 0).1) ∧
    ((allow ⟨4, ((0 : ℤ) : ℚ), 5⟩ 5 60 ((0 : ℤ) : ℚ)).2 =
        (luaAllow (some ⟨4, 0⟩) 5 60 0).2 ∧
      StateCorr 5 (allow ⟨4, ((0 : ℤ) : ℚ), 5⟩ 5 60 ((0 : ℤ) : ℚ)).1
        (luaAllow (some ⟨4, 0⟩) 5 60 0).1) :=
  ⟨(c2_fixed_limit_equivalence (by decide) (by decide)).1 0 0,
   (c2_fixed_limit_equivalence (by decide) (by decide)).2
      ⟨4, ((0 : ℤ) : ℚ), 5⟩ ⟨4, 0⟩ 0 ⟨rfl, rfl, rfl⟩⟩

/-- C6 (the in-process store has no lock): interleaving two unlocked
`allow(key, 1, 60)` calls for the same fresh key — thread 1 passes the
`tokens > 0` check, thread 2 then runs to completion, thread 1 resumes
with the decrement — admits both calls (the second even reports
`remaining = -1`), exceeding `limit = 1`. -/
theorem c6_unlocked_interleaving_overadmits :
    runSched 1 60 0 0 [true, true, true, false, false, false, false, true]
      (TPc.ready, TPc.ready, freshBucket 0) =
      (TPc.finished ⟨true, -1⟩, TPc.finished ⟨true, 0⟩, ⟨-1, 0, 1⟩) := by
  norm_num [runSched, threadStep, applyRefill, resetIfChanged, ratTrunc,
    freshBucket]

/-- C8: `build_limiter` is total — no remote address (or the falsy empty
string) selects the in-process store, a failing remote construction
falls back to the in-process store, a successful one yields the remote
store, every input yields one of the two, and the fallback's `allow`
still functions (a fresh key with a positive limit is admitted). -/
theorem c8_facade_fallback (construct : String → Except String String) :
    buildLimiter none construct = Limiter.inMemory ∧
    (∀ u e, u ≠ "" → construct u = .error e →
      buildLimiter (some u) construct = Limiter.inMemory) ∧
    (∀ u c, u ≠ "" → construct u = .ok c →
      buildLimiter (some u) construct = Limiter.remote c) ∧
    (∀ url, buildLimiter url construct = Limiter.inMemory ∨
      ∃ c, buildLimiter url construct = Limiter.remote c) ∧
    (∀ (tc now : ℚ) (L p : ℤ), 0 < L → 0 < p →
      (allow (freshBucket tc) L p now).2.allowed = true) := by
  refine ⟨rfl, fun u e hu hc => ?_, fun u c hu hc => ?_, fun url => ?_,
    fun tc now L p hL hp => ?_⟩
  · unfold buildLimiter
    dsimp only
    rw [if_neg hu, hc]
  · unfold buildLimiter
    dsimp only
    rw [if_neg hu, hc]
  · cases url with
    | none => exact Or.inl rfl
    | some u =>
      unfold buildLimiter
      dsimp only
      by_cases hu : u = ""
      · exact Or.inl (by rw [if_pos hu])
      · rw [if_neg hu]
        cases hck : construct u with
        | ok c => exact Or.inr ⟨c, rfl⟩
        | error e => exact Or.inl rfl
  · rw [allow_of_ne p (show (freshBucket tc).limit ≠ L from hL.ne), if_pos hL]

/-- Witness for C8: a construction that throws falls back to the
in-process store, and a fresh call on it is admitted. -/
theorem c8_facade_fallback_witness :
    buildLimiter (some ("redis://x")) (fun _ => Except.error ("boom")) =
      Limiter.inMemory ∧
    (allow (freshBucket 0) 5 60 0).2.allowed = true :=
  ⟨(c8_facade_fallback (fun _ => Except.error ("boom"))).2.1 "redis://x" "boom"
      (by decide) rfl,
   (c8_facade_fallback (fun _ => Except.error ("boom"))).2.2.2.2 0 0 5 60
      (by decide) (by decide)⟩
